import Mathlib

/-!
Verification development for the pvfilt live-monitoring pipeline.

Shallow embedding of the Rust sources:
  * src/analysis.rs  — `Analyzer::process_output`, the sample store and extractor;
  * src/draw.rs      — `analyze_rate` and the status/ETA part of `AppState::draw`;
  * src/main.rs      — `AppState::process_event`, `start_worker`;
  * src/runner.rs    — `watch_cmd` and `CmdOutput`.

Modelling conventions:
  * Rust `f64` sample values and timestamps are modelled as exact rationals.
    The only IEEE-754 behaviour that the verified properties depend on is the
    treatment of division by zero, signed zero, infinities and NaN in the ETA
    computation; these are modelled exactly by the `EF` type below.  Rounding
    of arithmetic on finite values is abstracted away: every concrete input in
    this development is exactly representable and every operation on it is
    exact in `f64` as well.
  * Rust `String` is modelled as `List Char`, byte buffers as `List Nat`.
  * A Rust `VecDeque` is a `List` whose head is the front (oldest) element:
    `push_back` is `· ++ [s]` and `pop_front` is `List.drop 1`.
  * Fallible operations (`unwrap` on a parse, indexing) return `Option`;
    `none` models a panic and the development proves the relevant calls
    never produce it.
-/

namespace Pvfilt

/-- One progress observation, from `Sample` in src/analysis.rs.  `instant` is
the monotonic timestamp, `time` the wall-clock timestamp (both in seconds,
modelled as rationals). -/
structure Sample where
  instant : ℚ
  time : ℚ
  value : ℚ
  max : ℚ
deriving DecidableEq, Repr

/-- Model of an I/O error value (`std::io::Error`), identified by its message. -/
structure IOErr where
  msg : List Char
deriving DecidableEq, Repr

/-- `CmdOutput` from src/runner.rs: exit status plus decoded stdout/stderr. -/
structure CmdOutput where
  status : Int
  stdout : List Char
  stderr : List Char
deriving DecidableEq, Repr

/-- `CmdResult` from src/runner.rs: a `CmdOutput` or a spawn/wait failure. -/
abbrev CmdResult := Except IOErr CmdOutput

/-! ### The detection rule of `Analyzer::process_output` (src/analysis.rs)

The source compiles the pattern `([0-9]+)/([0-9]+)` and asks for the first
(leftmost) match in the command's stdout.  For this pattern, leftmost-first
regex semantics coincide with: at the first position where a match is
possible, group 1 is the maximal digit run starting there, followed by `/`,
followed by the maximal digit run after the slash (group 2).  Shrinking the
greedy first group can never repair a failed match, because the character
after a shortened digit run is itself a digit, not `/`. -/

/-- Attempt to match `([0-9]+)/([0-9]+)` anchored at the start of `s`,
returning the two captured groups. -/
def matchAt (s : List Char) : Option (List Char × List Char) :=
  let g1 := s.takeWhile Char.isDigit
  if g1.isEmpty then none
  else
    match s.drop g1.length with
    | '/' :: rest =>
        let g2 := rest.takeWhile Char.isDigit
        if g2.isEmpty then none else some (g1, g2)
    | _ => none

/-- Leftmost match of `([0-9]+)/([0-9]+)` in `s`, as `RE.captures` returns it. -/
def findMatch : List Char → Option (List Char × List Char)
  | [] => none
  | c :: rest =>
      match matchAt (c :: rest) with
      | some r => some r
      | none => findMatch rest

/-- Numeric value of a digit string. -/
def digitsToNat (g : List Char) : ℕ :=
  g.foldl (fun n c => n * 10 + (c.toNat - 48)) 0

/-- Model of `str::parse::<f64>()` restricted to the strings that reach it in
src/analysis.rs: a non-empty all-digit string always parses (Rust returns
`Ok`, saturating to infinity only far beyond any input in this development),
and its value is the exact integer it spells.  Other shapes are mapped to
`none`, a sound under-approximation of Rust's grammar which keeps the
no-panic theorem honest. -/
def parseNum (g : List Char) : Option ℚ :=
  if g.isEmpty then none
  else if g.all Char.isDigit then some (digitsToNat g : ℚ)
  else none

/-- `Analyzer::process_output` (src/analysis.rs lines 28–51), with the two
clock reads passed in explicitly.  The store is the `samples` deque (head =
oldest).  `none` models the panic of either `.unwrap()` on a failed parse. -/
def processOutput (now wall : ℚ) (samples : List Sample) (outp : CmdOutput) :
    Option (List Sample) := do
  let samples1 ←
    match findMatch outp.stdout with
    | some (g1, g2) => do
        let value ← parseNum g1
        let mx ← parseNum g2
        pure (samples ++ [⟨now, wall, value, mx⟩])
    | none => pure samples
  pure (if 1000 < samples1.length then samples1.drop 1 else samples1)

/-- One `process_output` call's input: monotonic time, wall time, output. -/
abbrev RunInput := ℚ × ℚ × CmdOutput

/-- The sample the extractor would produce for one input, if any; `none` when
the pattern does not match or (unreachably) a captured group fails to parse. -/
def extractSampleOpt (i : RunInput) : Option Sample := do
  let (g1, g2) ← findMatch i.2.2.stdout
  let value ← parseNum g1
  let mx ← parseNum g2
  pure ⟨i.1, i.2.1, value, mx⟩

/-- Folding a sequence of `process_output` calls over the store. -/
def runSeq : List RunInput → List Sample → Option (List Sample)
  | [], samples => some samples
  | (now, wall, outp) :: rest, samples =>
      (processOutput now wall samples outp).bind (runSeq rest)

/-- The suffix of length at most `n` of a list. -/
def takeLast (n : ℕ) (l : List α) : List α := l.drop (l.length - n)

/-! ### `analyze_rate` (src/draw.rs lines 296–313)

The Rust function is a `scan` over the input with state `Option<(f64, f64)>`
(the base point), followed by `filter_map(|x| x)` and `skip(1)`.  It is split
here into the state transition and the emitted element of one step. -/

/-- State transition of the `analyze_rate` scan: the base point is installed
on the first element, kept unchanged on an equal-value element, and advanced
on a changed-value element. -/
def rateStep (st : Option (ℚ × ℚ)) (p : ℚ × ℚ) : Option (ℚ × ℚ) :=
  match st with
  | none => some p
  | some (lt, lv) => if p.2 = lv then some (lt, lv) else some p

/-- Emitted element of one `analyze_rate` scan step: nothing on the first
element or on an equal-value element, otherwise the rate from the base point,
keyed at the base point's time. -/
def rateEmit (st : Option (ℚ × ℚ)) (p : ℚ × ℚ) : Option (ℚ × ℚ) :=
  match st with
  | none => none
  | some (lt, lv) => if p.2 = lv then none else some (lt, (p.2 - lv) / (p.1 - lt))

/-- The scan underlying `analyze_rate`. -/
def rateScan (st : Option (ℚ × ℚ)) : List (ℚ × ℚ) → List (Option (ℚ × ℚ))
  | [] => []
  | p :: ps => rateEmit st p :: rateScan (rateStep st p) ps

/-- `analyze_rate` itself: scan, keep the emitted rates, drop one leading
point (the warm-up discard). -/
def analyzeRate (data : List (ℚ × ℚ)) : List (ℚ × ℚ) :=
  ((rateScan none data).filterMap id).drop 1

/-! ### IEEE-754 special values for the ETA computation

The ETA code in src/draw.rs divides `f64` values that can be zero, producing
signed zeros, infinities and NaN.  `EF` models an `f64` as either an exact
finite rational (where `fin 0` is `+0.0`), the negative zero `nzero`, the two
infinities, or NaN.  Subtraction of finite values never produces `-0.0` in
round-to-nearest, so embedding a difference of rationals as `fin` is exact.
Division is modelled by the IEEE-754 rules; the quotient of two finite
nonzero values is taken exact (no rounding), which is an identity on every
input appearing in this development. -/

inductive EF where
  | fin (q : ℚ)
  | nzero
  | inf
  | ninf
  | nan
deriving DecidableEq, Repr

/-- IEEE-754 division on `EF`. -/
def EF.div : EF → EF → EF
  | fin a, fin b =>
      if b = 0 then (if 0 < a then inf else if a < 0 then ninf else nan)
      else if a = 0 ∧ b < 0 then nzero
      else fin (a / b)
  | fin a, nzero => if 0 < a then ninf else if a < 0 then inf else nan
  | fin _, inf => fin 0
  | fin _, ninf => nzero
  | fin _, nan => nan
  | nzero, fin b => if b = 0 then nan else if b < 0 then fin 0 else nzero
  | nzero, nzero => nan
  | nzero, inf => nzero
  | nzero, ninf => fin 0
  | nzero, nan => nan
  | inf, fin b => if b < 0 then ninf else inf
  | inf, nzero => ninf
  | inf, inf => nan
  | inf, ninf => nan
  | inf, nan => nan
  | ninf, fin b => if b < 0 then inf else ninf
  | ninf, nzero => inf
  | ninf, inf => nan
  | ninf, ninf => nan
  | ninf, nan => nan
  | nan, _ => nan

/-- The comparison `eta >= 0.0` on an `f64`: true for `+0.0`, `-0.0` and
`+inf`, false for negative values, `-inf` and NaN. -/
def EF.ge0 : EF → Bool
  | fin q => decide (0 ≤ q)
  | nzero => true
  | inf => true
  | ninf => false
  | nan => false

/-- The saturating cast `eta as u64`: truncation toward zero (for a
non-negative rational, the integer division of numerator by denominator),
clamped to the `u64` range, with NaN mapped to 0. -/
def EF.asU64 : EF → ℕ
  | fin q => if q < 0 then 0 else min (q.num.toNat / q.den) (2 ^ 64 - 1)
  | nzero => 0
  | inf => 2 ^ 64 - 1
  | ninf => 0
  | nan => 0

/-! ### The status/ETA part of `AppState::draw` (src/draw.rs lines 55–147) -/

/-- The `(time_scale, time_origin)` pair of src/draw.rs lines 58–69.  `now`
stands for the `Instant::now()` of the empty-store branch.  The store is
append-ordered with monotonically increasing instants, so
`last.instant.duration_since(first.instant)` is the plain difference. -/
def timeParams (now : ℚ) (samples : List Sample) : ℚ × ℚ :=
  match samples.head?, samples.getLast? with
  | some first, some last =>
      (max (last.instant - first.instant) 1,
       last.instant - max (last.instant - first.instant) 1)
  | _, _ => (1, now)

/-- The `data` series of src/draw.rs lines 71–81: the samples newest-first,
cut off at the first one older than `time_origin` (the `checked_duration_since`
guard ends the `scan`), each mapped to
`(instant - origin - scale, value)`. -/
def dataOf (now : ℚ) (samples : List Sample) : List (ℚ × ℚ) :=
  (samples.reverse.takeWhile
      (fun s => decide ((timeParams now samples).2 ≤ s.instant))).map
    (fun s => (s.instant - (timeParams now samples).2 -
      (timeParams now samples).1, s.value))

/-- The ETA value of src/draw.rs lines 138–142: with at least two samples,
`front`/`back` are the first and last entries of `data` (newest and oldest),
`max` comes from the newest sample, `speed = (back.1 - front.1) / (back.0 -
front.0)` and `eta = (max - front.1) / speed`.  The outer `none` covers both
the fewer-than-two-samples branch (the "Waiting for more data..." message)
and the — provably unreachable — panics of the three `.unwrap()` calls. -/
def statusEtaEF (now : ℚ) (samples : List Sample) : Option EF :=
  if 2 ≤ samples.length then
    match (dataOf now samples).head?, (dataOf now samples).getLast?,
        samples.getLast? with
    | some front, some back, some lastS =>
        some (EF.div (EF.fin (lastS.max - front.2))
          (EF.div (EF.fin (back.2 - front.2)) (EF.fin (back.1 - front.1))))
    | _, _, _ => none
  else none

/-- The displayed ETA branch of src/draw.rs lines 143–147: `some secs` when
`eta >= 0.0` holds (the formatted `Duration::from_secs(eta as u64)`), `none`
for the "(unknown)" text. -/
def etaBranch (eta : EF) : Option ℕ :=
  if EF.ge0 eta then some (EF.asU64 eta) else none

/-- What the status pane shows for the ETA: `none` while waiting for data,
`some none` for "(unknown)", `some (some secs)` for a formatted duration. -/
def statusEtaDisplay (now : ℚ) (samples : List Sample) : Option (Option ℕ) :=
  (statusEtaEF now samples).map etaBranch

/-- The ETA value of the inline `AppState::draw` copy in src/main.rs lines
288-297 — the copy the crate actually compiles, since src/main.rs declares
only `mod analysis; mod runner;`, so the drawing module of src/draw.rs is
not wired into the build.  It differs from `statusEtaEF` in one place:
line 292 computes `eta = (max - back.1) / speed`, and `back = data.last()`
is the OLDEST windowed entry (the `data` series is built newest-first), so
the numerator uses the oldest value where src/draw.rs line 142 uses the
newest. -/
def statusEtaEFMain (now : ℚ) (samples : List Sample) : Option EF :=
  if 2 ≤ samples.length then
    match (dataOf now samples).head?, (dataOf now samples).getLast?,
        samples.getLast? with
    | some front, some back, some lastS =>
        some (EF.div (EF.fin (lastS.max - back.2))
          (EF.div (EF.fin (back.2 - front.2)) (EF.fin (back.1 - front.1))))
    | _, _, _ => none
  else none

/-- The displayed ETA of the compiled (src/main.rs) draw: same
eta-to-display branch as src/draw.rs, applied to `statusEtaEFMain`. -/
def statusEtaDisplayMain (now : ℚ) (samples : List Sample) :
    Option (Option ℕ) :=
  (statusEtaEFMain now samples).map etaBranch

/-! ### `watch_cmd` (src/runner.rs) and the worker callback (src/main.rs)

`watch_cmd` builds the child with `.stdout(Stdio::piped())` and no stderr
configuration, so the child's standard error is inherited, and
`wait_with_output` (per its std contract) returns collected bytes only for
piped streams and an empty buffer otherwise. -/

/-- What one execution of the monitored command actually does: its exit
status and the bytes it writes to its two output streams. -/
structure ChildBehavior where
  status : Int
  stdoutBytes : List ℕ
  stderrBytes : List ℕ
deriving DecidableEq, Repr

/-- Which standard streams the spawned child has piped. -/
structure StdioCfg where
  stdoutPiped : Bool
  stderrPiped : Bool
deriving DecidableEq, Repr

/-- The configuration built in src/runner.rs lines 17–20: stdout piped,
stderr left at the `spawn` default (inherit). -/
def pvfiltCfg : StdioCfg := ⟨true, false⟩

/-- Collected output of `Child::wait_with_output` under a pipe configuration:
the captured byte stream of each piped channel, an empty buffer for an
inherited one (std's documented behaviour). -/
def waitWithOutput (cfg : StdioCfg) (b : ChildBehavior) : Int × List ℕ × List ℕ :=
  (b.status,
   if cfg.stdoutPiped then b.stdoutBytes else [],
   if cfg.stderrPiped then b.stderrBytes else [])

/-- The replacement character U+FFFD. -/
def repl : Char := Char.ofNat 0xFFFD

/-- Continuation-byte test for UTF-8. -/
def isCont (b : ℕ) : Bool := 0x80 ≤ b && b ≤ 0xBF

/-- Admissible range test for the second byte of a three-byte sequence with
lead byte `b` (tightened for 0xE0 and 0xED to exclude overlong encodings and
surrogates). -/
def cont3 (b b2 : ℕ) : Bool :=
  (if b = 0xE0 then 0xA0 else 0x80) ≤ b2 && b2 ≤ (if b = 0xED then 0x9F else 0xBF)

/-- Admissible range test for the second byte of a four-byte sequence with
lead byte `b` (tightened for 0xF0 and 0xF4 to the scalar-value range). -/
def cont4 (b b2 : ℕ) : Bool :=
  (if b = 0xF0 then 0x90 else 0x80) ≤ b2 && b2 ≤ (if b = 0xF4 then 0x8F else 0xBF)

/-- One step of the lossy UTF-8 decoder for a non-ASCII lead byte `b`:
the decoded character (or U+FFFD) and the input not yet consumed.  Follows
the maximal-subpart policy of `String::from_utf8_lossy`: on an invalid
sequence, exactly the bytes forming a valid prefix are replaced. -/
def utf8Step (b : ℕ) (rest : List ℕ) : Char × List ℕ :=
  if 0xC2 ≤ b && b ≤ 0xDF then
    match rest with
    | [] => (repl, [])
    | b2 :: rest2 =>
        if isCont b2 then (Char.ofNat ((b - 0xC0) * 0x40 + (b2 - 0x80)), rest2)
        else (repl, b2 :: rest2)
  else if 0xE0 ≤ b && b ≤ 0xEF then
    match rest with
    | [] => (repl, [])
    | [b2] => if cont3 b b2 then (repl, []) else (repl, [b2])
    | b2 :: b3 :: rest3 =>
        if cont3 b b2 then
          if isCont b3 then
            (Char.ofNat ((b - 0xE0) * 0x1000 + (b2 - 0x80) * 0x40 + (b3 - 0x80)),
             rest3)
          else (repl, b3 :: rest3)
        else (repl, b2 :: b3 :: rest3)
  else if 0xF0 ≤ b && b ≤ 0xF4 then
    match rest with
    | [] => (repl, [])
    | [b2] => if cont4 b b2 then (repl, []) else (repl, [b2])
    | [b2, b3] =>
        if cont4 b b2 then
          (if isCont b3 then (repl, []) else (repl, [b3]))
        else (repl, [b2, b3])
    | b2 :: b3 :: b4 :: rest4 =>
        if cont4 b b2 then
          if isCont b3 then
            if isCont b4 then
              (Char.ofNat ((b - 0xF0) * 0x40000 + (b2 - 0x80) * 0x1000 +
                (b3 - 0x80) * 0x40 + (b4 - 0x80)), rest4)
            else (repl, b4 :: rest4)
          else (repl, b3 :: b4 :: rest4)
        else (repl, b2 :: b3 :: b4 :: rest4)
  else (repl, rest)

/-- The lossy UTF-8 decoder, driven by a fuel argument that strictly exceeds
the number of bytes still to be consumed (each step consumes at least one). -/
def utf8LossyAux : ℕ → List ℕ → List Char
  | 0, _ => []
  | _ + 1, [] => []
  | fuel + 1, b :: rest =>
      if b < 0x80 then Char.ofNat b :: utf8LossyAux fuel rest
      else
        let st := utf8Step b rest
        st.1 :: utf8LossyAux fuel st.2

/-- `String::from_utf8_lossy` (total: decoding is never fatal). -/
def utf8Lossy (l : List ℕ) : List Char := utf8LossyAux l.length l

/-- The `CmdOutput` that one successful run of the loop body of `watch_cmd`
(src/runner.rs lines 17–28) hands to the callback, given what the child did:
exit status verbatim, each stream lossily decoded from whatever
`wait_with_output` collected for it. -/
def runOnce (b : ChildBehavior) : CmdOutput :=
  let o := waitWithOutput pvfiltCfg b
  ⟨o.1, utf8Lossy o.2.1, utf8Lossy o.2.2⟩

/-- One iteration's outcome before the callback: either what the child did,
or the I/O error of a failed spawn/wait. -/
abbrev RunOutcome := Except IOErr ChildBehavior

/-- Events of the `watch_cmd` loop visible to its environment. -/
inductive WorkerEvent where
  | deliver (r : CmdResult)
  | sleep (secs : ℕ)

/-- The trace of `watch_cmd` (src/runner.rs lines 15–32) over a finite prefix
of run outcomes: every iteration — failed or not — invokes the callback with
the mapped result and then sleeps `Duration::from_secs(1)`; nothing ends the
loop. -/
def watchCmdTrace : List RunOutcome → List WorkerEvent
  | [] => []
  | o :: os =>
      WorkerEvent.deliver (o.map runOnce) :: WorkerEvent.sleep 1 :: watchCmdTrace os

/-- The delivered result of a trace event, if it is a delivery. -/
def deliveredOf : WorkerEvent → Option CmdResult
  | WorkerEvent.deliver r => some r
  | WorkerEvent.sleep _ => none

/-- The worker's shared state (src/main.rs lines 111–118): the analyzer's
sample store and the "last result" slot. -/
structure WorkerSt where
  samples : List Sample
  lastOutput : Option CmdResult

/-- The callback installed by `start_worker` (src/main.rs lines 122–131):
on a success the output is fed to `process_output`; in every case the last
result slot is overwritten with the whole new result and an `Update` event is
sent (the returned `Bool`).  `none` models the unreachable parse panic. -/
def workerOnResult (now wall : ℚ) (st : WorkerSt) (r : CmdResult) :
    Option (WorkerSt × Bool) :=
  match r with
  | Except.ok out =>
      (processOutput now wall st.samples out).map
        (fun s => (⟨s, some (Except.ok out)⟩, true))
  | Except.error e => some (⟨st.samples, some (Except.error e)⟩, true)

/-! ### `AppState::process_event` (src/main.rs lines 145–163) -/

/-- The subset of `termion::event::Key` relevant to the handler, with a
catch-all for the remaining constructors. -/
inductive TKey where
  | char (c : Char)
  | ctrl (c : Char)
  | esc
  | otherKey
deriving DecidableEq

/-- `termion::event::Event`. -/
inductive TEvent where
  | key (k : TKey)
  | mouse
  | unsupported
deriving DecidableEq

/-- `AppEvent` from src/main.rs lines 68–72. -/
inductive AppEvent where
  | term (e : TEvent)
  | resize
  | update
deriving DecidableEq

/-- `AppState::process_event`: the returned pair is (ends the main loop,
redraws).  The three quit arms `Ctrl('c')`, `Char('q')` and `Esc` return
`Ok(true)`; any other terminal event falls into the `AppEvent::Term(_) => {}`
arm and does nothing; `Resize` and `Update` call `draw` and return
`Ok(false)`. -/
def processEvent (e : AppEvent) : Bool × Bool :=
  match e with
  | AppEvent.term t =>
      match t with
      | TEvent.key k =>
          match k with
          | TKey.ctrl c => if c = 'c' then (true, false) else (false, false)
          | TKey.char c => if c = 'q' then (true, false) else (false, false)
          | TKey.esc => (true, false)
          | TKey.otherKey => (false, false)
      | _ => (false, false)
  | AppEvent.resize => (false, true)
  | AppEvent.update => (false, true)

/-- The eviction step at the end of `process_output`: `pop_front` exactly
when the store holds more than 1000 samples. -/
def evict (l : List Sample) : List Sample :=
  if 1000 < l.length then l.drop 1 else l

/-! ## Lemmas -/

theorem utf8Step_length (b : ℕ) (rest : List ℕ) :
    (utf8Step b rest).2.length ≤ rest.length := by
  rcases rest with _ | ⟨b2, _ | ⟨b3, _ | ⟨b4, rest4⟩⟩⟩ <;>
      simp only [utf8Step] <;> repeat' split
  all_goals simp_arith

theorem utf8LossyAux_fuel (fuel1 fuel2 : ℕ) (l : List ℕ)
    (h1 : l.length ≤ fuel1) (h2 : l.length ≤ fuel2) :
    utf8LossyAux fuel1 l = utf8LossyAux fuel2 l := by
  induction fuel1 generalizing fuel2 l with
  | zero =>
      match l, h1 with
      | [], _ => cases fuel2 <;> rfl
  | succ f1 ih =>
      match l, fuel2, h2 with
      | [], 0, _ => rfl
      | [], f2 + 1, _ => rfl
      | b :: rest, f2 + 1, h2 =>
          simp only [utf8LossyAux]
          have hr : rest.length ≤ f1 := by
            simp only [List.length_cons] at h1; omega
          have hr2 : rest.length ≤ f2 := by
            simp only [List.length_cons] at h2; omega
          have hs : (utf8Step b rest).2.length ≤ f1 :=
            le_trans (utf8Step_length b rest) hr
          have hs2 : (utf8Step b rest).2.length ≤ f2 :=
            le_trans (utf8Step_length b rest) hr2
          split
          · rw [ih f2 rest hr hr2]
          · rw [ih f2 _ hs hs2]

theorem utf8Lossy_cons_ascii (b : ℕ) (rest : List ℕ) (hb : b < 0x80) :
    utf8Lossy (b :: rest) = Char.ofNat b :: utf8Lossy rest := by
  simp only [utf8Lossy, List.length_cons, utf8LossyAux, hb, if_pos]

/-- Lossy decoding is the identity (as code points) on pure ASCII input. -/
theorem utf8Lossy_ascii (l : List ℕ) (h : ∀ x ∈ l, x < 0x80) :
    utf8Lossy l = l.map Char.ofNat := by
  induction l with
  | nil => rfl
  | cons b rest ih =>
      rw [utf8Lossy_cons_ascii b rest (h b (by simp)), List.map_cons,
        ih (fun x hx => h x (by simp [hx]))]

theorem matchAt_groups (s g1 g2 : List Char)
    (h : matchAt s = some (g1, g2)) :
    g1 ≠ [] ∧ g1.all Char.isDigit = true ∧ g2 ≠ [] ∧ g2.all Char.isDigit = true := by
  simp only [matchAt] at h
  split at h
  · exact absurd h (by simp)
  next h1 =>
    split at h
    · split at h
      · exact absurd h (by simp)
      next rest _ h2 =>
        simp only [Option.some.injEq, Prod.mk.injEq] at h
        obtain ⟨hg1, hg2⟩ := h
        subst hg1; subst hg2
        refine ⟨by simpa [List.isEmpty_iff] using h1, ?_,
          by simpa [List.isEmpty_iff] using h2, ?_⟩
        · simp only [List.all_eq_true]
          exact fun c hc => List.mem_takeWhile_imp hc
        · simp only [List.all_eq_true]
          exact fun c hc => List.mem_takeWhile_imp hc
    · exact absurd h (by simp)

theorem findMatch_groups (s g1 g2 : List Char)
    (h : findMatch s = some (g1, g2)) :
    g1 ≠ [] ∧ g1.all Char.isDigit = true ∧ g2 ≠ [] ∧ g2.all Char.isDigit = true := by
  induction s with
  | nil => simp [findMatch] at h
  | cons c rest ih =>
      unfold findMatch at h
      rcases hm : matchAt (c :: rest) with _ | r <;> rw [hm] at h
      · exact ih h
      · rcases r with ⟨r1, r2⟩
        simp only [Option.some.injEq, Prod.mk.injEq] at h
        rcases h with ⟨h1, h2⟩
        subst h1; subst h2
        exact matchAt_groups _ _ _ hm

theorem parseNum_isSome (g : List Char) (hne : g ≠ [])
    (hdig : g.all Char.isDigit = true) : (parseNum g).isSome = true := by
  unfold parseNum
  simp [List.isEmpty_iff, hne, hdig]

/-- Characterization of `process_output` when the detection pattern matches:
the parsed sample is pushed and the store evicted. -/
theorem processOutput_of_match (now wall : ℚ) (st : List Sample)
    (outp : CmdOutput) (g1 g2 : List Char) (v m : ℚ)
    (hm : findMatch outp.stdout = some (g1, g2))
    (hv : parseNum g1 = some v) (hmx : parseNum g2 = some m) :
    processOutput now wall st outp = some (evict (st ++ [⟨now, wall, v, m⟩])) := by
  simp [processOutput, hm, hv, hmx, evict]

/-- Characterization of `process_output` when the pattern does not match:
no sample is appended, only the (then vacuous) eviction check runs. -/
theorem processOutput_of_no_match (now wall : ℚ) (st : List Sample)
    (outp : CmdOutput) (hm : findMatch outp.stdout = none) :
    processOutput now wall st outp = some (evict st) := by
  simp [processOutput, hm, evict]

/-- `process_output` never panics: when the pattern matches, both captured
groups are non-empty digit strings, and those always parse. -/
theorem processOutput_isSome (now wall : ℚ) (st : List Sample) (outp : CmdOutput) :
    (processOutput now wall st outp).isSome = true := by
  rcases hm : findMatch outp.stdout with _ | ⟨g1, g2⟩
  · rw [processOutput_of_no_match now wall st outp hm]; rfl
  · obtain ⟨h1, h2, h3, h4⟩ := findMatch_groups _ _ _ hm
    obtain ⟨v, hv⟩ := Option.isSome_iff_exists.mp (parseNum_isSome g1 h1 h2)
    obtain ⟨m, hmx⟩ := Option.isSome_iff_exists.mp (parseNum_isSome g2 h3 h4)
    rw [processOutput_of_match now wall st outp g1 g2 v m hm hv hmx]
    rfl

theorem extractSampleOpt_processOutput (i : RunInput) (s : Sample)
    (st : List Sample) (h : extractSampleOpt i = some s) :
    processOutput i.1 i.2.1 st i.2.2 = some (evict (st ++ [s])) := by
  rcases i with ⟨now, wall, outp⟩
  simp only [extractSampleOpt] at h
  rcases hm : findMatch outp.stdout with _ | ⟨g1, g2⟩ <;> rw [hm] at h
  · simp at h
  · simp only [Option.bind_eq_bind, Option.some_bind] at h
    rcases hv : parseNum g1 with _ | v <;> rw [hv] at h
    · simp at h
    · rcases hmx : parseNum g2 with _ | m <;> rw [hmx] at h
      · simp at h
      · simp only [Option.some_bind, Option.pure_def, Option.some.injEq] at h
        subst h
        exact processOutput_of_match now wall st outp g1 g2 v m hm hv hmx

theorem evict_length (l : List Sample) (h : l.length ≤ 1001) :
    (evict l).length ≤ 1000 := by
  unfold evict
  split
  · simp only [List.length_drop]; omega
  · omega

theorem processOutput_length (now wall : ℚ) (st st' : List Sample)
    (outp : CmdOutput) (hlen : st.length ≤ 1000)
    (h : processOutput now wall st outp = some st') : st'.length ≤ 1000 := by
  rcases hm : findMatch outp.stdout with _ | ⟨g1, g2⟩
  · rw [processOutput_of_no_match now wall st outp hm] at h
    obtain rfl : evict st = st' := by simpa using h
    exact evict_length st (by omega)
  · obtain ⟨h1, h2, h3, h4⟩ := findMatch_groups _ _ _ hm
    obtain ⟨v, hv⟩ := Option.isSome_iff_exists.mp (parseNum_isSome g1 h1 h2)
    obtain ⟨m, hmx⟩ := Option.isSome_iff_exists.mp (parseNum_isSome g2 h3 h4)
    rw [processOutput_of_match now wall st outp g1 g2 v m hm hv hmx] at h
    obtain rfl : evict (st ++ [⟨now, wall, v, m⟩]) = st' := by simpa using h
    exact evict_length _ (by simp; omega)

theorem runSeq_length (inputs : List RunInput) (st st' : List Sample)
    (hlen : st.length ≤ 1000) (h : runSeq inputs st = some st') :
    st'.length ≤ 1000 := by
  induction inputs generalizing st with
  | nil =>
      obtain rfl : st = st' := by simpa [runSeq] using h
      exact hlen
  | cons i rest ih =>
      rcases i with ⟨now, wall, outp⟩
      simp only [runSeq] at h
      rcases hp : processOutput now wall st outp with _ | st1 <;> rw [hp] at h
      · simp at h
      · exact ih st1 (processOutput_length now wall st st1 outp hlen hp)
          (by simpa using h)

theorem takeLast_of_le (n : ℕ) (l : List α) (h : l.length ≤ n) :
    takeLast n l = l := by
  simp [takeLast, Nat.sub_eq_zero_of_le h]

theorem evict_eq_takeLast (l : List Sample) (h : l.length ≤ 1001) :
    evict l = takeLast 1000 l := by
  unfold evict takeLast
  split
  next hgt =>
    have h1 : l.length - 1000 = 1 := by omega
    rw [h1]
  next hle =>
    have h0 : l.length - 1000 = 0 := by omega
    rw [h0, List.drop_zero]

theorem takeLast_idem_append (n : ℕ) (l L : List α) :
    takeLast n (takeLast n l ++ L) = takeLast n (l ++ L) := by
  unfold takeLast
  by_cases h : l.length ≤ n
  · rw [Nat.sub_eq_zero_of_le h]
    simp
  · push_neg at h
    have hk : l.length - n ≤ l.length := Nat.sub_le _ _
    rw [← List.drop_append_of_le_length hk, List.drop_drop]
    congr 1
    simp only [List.length_append, List.length_drop]
    omega

theorem runSeq_all_match (inputs : List RunInput) (st : List Sample)
    (hall : ∀ i ∈ inputs, (extractSampleOpt i).isSome = true)
    (hlen : st.length ≤ 1000) :
    runSeq inputs st =
      some (takeLast 1000 (st ++ inputs.filterMap extractSampleOpt)) := by
  induction inputs generalizing st with
  | nil =>
      simp [runSeq, takeLast_of_le 1000 st hlen]
  | cons i rest ih =>
      obtain ⟨s, hs⟩ := Option.isSome_iff_exists.mp (hall i (by simp))
      rcases i with ⟨now, wall, outp⟩
      simp only [runSeq]
      rw [extractSampleOpt_processOutput _ s st hs, Option.some_bind,
        ih _ (fun j hj => hall j (by simp [hj]))
          (evict_length _ (by simp; omega))]
      rw [evict_eq_takeLast _ (by simp; omega),
        List.filterMap_cons_some hs]
      rw [takeLast_idem_append]
      simp

theorem length_filterMap_of_all_isSome (f : α → Option β) (l : List α)
    (h : ∀ i ∈ l, (f i).isSome = true) : (l.filterMap f).length = l.length := by
  induction l with
  | nil => rfl
  | cons a rest ih =>
      obtain ⟨b, hb⟩ := Option.isSome_iff_exists.mp (h a (by simp))
      rw [List.filterMap_cons_some hb, List.length_cons, List.length_cons,
        ih (fun i hi => h i (by simp [hi]))]

theorem rateScan_append (st : Option (ℚ × ℚ)) (as bs : List (ℚ × ℚ)) :
    rateScan st (as ++ bs) =
      rateScan st as ++ rateScan (as.foldl rateStep st) bs := by
  induction as generalizing st with
  | nil => simp [rateScan]
  | cons p rest ih =>
      simp only [List.cons_append, rateScan, List.foldl_cons, List.append_eq, ih,
        List.cons_append]

theorem rateStep_value (st : Option (ℚ × ℚ)) (t v : ℚ) :
    ∃ t2, rateStep st (t, v) = some (t2, v) := by
  rcases st with _ | ⟨lt, lv⟩
  · exact ⟨t, rfl⟩
  · by_cases h : v = lv
    · exact ⟨lt, by simp [rateStep, h]⟩
    · exact ⟨t, by simp [rateStep, h]⟩

theorem rateScan_const (ps : List (ℚ × ℚ)) (c : ℚ) (st : Option (ℚ × ℚ))
    (hps : ∀ q ∈ ps, q.2 = c) (hst : ∀ t v, st = some (t, v) → v = c) :
    (rateScan st ps).filterMap id = [] := by
  induction ps generalizing st with
  | nil => rfl
  | cons p rest ih =>
      have hpc : p.2 = c := hps p (by simp)
      have hemit : rateEmit st p = none := by
        rcases st with _ | ⟨lt, lv⟩
        · rfl
        · have hlv : lv = c := hst lt lv rfl
          simp [rateEmit, hpc, hlv]
      have hstep : ∀ t v, rateStep st p = some (t, v) → v = c := by
        rcases st with _ | ⟨lt, lv⟩
        · intro t v h
          simp only [rateStep, Option.some.injEq] at h
          subst h
          exact hpc
        · intro t v h
          have hlv : lv = c := hst lt lv rfl
          simp only [rateStep] at h
          split at h
          · simp only [Option.some.injEq, Prod.mk.injEq] at h
            rw [← h.2]
            exact hlv
          · simp only [Option.some.injEq] at h
            subst h
            exact hpc
      rw [rateScan, hemit, List.filterMap_cons_none rfl]
      exact ih (rateStep st p) (fun q hq => hps q (List.mem_cons_of_mem p hq)) hstep

theorem timeParams_eq (now : ℚ) (samples : List Sample) (sf sl : Sample)
    (hh : samples.head? = some sf) (hl : samples.getLast? = some sl) :
    timeParams now samples =
      (max (sl.instant - sf.instant) 1,
       sl.instant - max (sl.instant - sf.instant) 1) := by
  unfold timeParams
  rw [hh, hl]

theorem dataOf_ne_nil (now : ℚ) (samples : List Sample) (hne : samples ≠ []) :
    dataOf now samples ≠ [] := by
  obtain ⟨sf, hh⟩ := Option.isSome_iff_exists.mp (List.head?_isSome.mpr hne)
  obtain ⟨sl, hl⟩ := Option.isSome_iff_exists.mp (List.getLast?_isSome.mpr hne)
  have ht2 : (timeParams now samples).2 =
      sl.instant - max (sl.instant - sf.instant) 1 := by
    rw [timeParams_eq now samples sf sl hh hl]
  unfold dataOf
  cases hrev : samples.reverse with
  | nil => exact absurd (by simpa using hrev) hne
  | cons a t =>
      have ha : a = sl := by
        have hrh := List.head?_reverse samples
        rw [hrev, hl] at hrh
        simpa using hrh
      have hp : decide ((timeParams now samples).2 ≤ a.instant) = true := by
        have h1 : (1:ℚ) ≤ max (sl.instant - sf.instant) 1 := le_max_right _ _
        simp only [ht2, ha, decide_eq_true_eq]
        linarith
      simp only [List.takeWhile_cons, hp, if_true]
      simp

theorem dataOf_of_mono (now : ℚ) (samples : List Sample) (sf sl : Sample)
    (hh : samples.head? = some sf) (hl : samples.getLast? = some sl)
    (hmono : ∀ s ∈ samples, sf.instant ≤ s.instant) :
    dataOf now samples =
      samples.reverse.map (fun s =>
        (s.instant - (sl.instant - max (sl.instant - sf.instant) 1) -
          max (sl.instant - sf.instant) 1, s.value)) := by
  have ht1 : (timeParams now samples).1 = max (sl.instant - sf.instant) 1 := by
    rw [timeParams_eq now samples sf sl hh hl]
  have ht2 : (timeParams now samples).2 =
      sl.instant - max (sl.instant - sf.instant) 1 := by
    rw [timeParams_eq now samples sf sl hh hl]
  have hfull : samples.reverse.takeWhile
      (fun s => decide ((timeParams now samples).2 ≤ s.instant)) =
      samples.reverse := by
    rw [List.takeWhile_eq_self_iff]
    intro s hs
    have hs1 : sf.instant ≤ s.instant := hmono s (List.mem_reverse.mp hs)
    have h2 : max (sl.instant - sf.instant) 1 ≥ sl.instant - sf.instant :=
      le_max_left _ _
    simp only [ht2, decide_eq_true_eq]
    linarith
  unfold dataOf
  rw [hfull, ht1, ht2]

theorem statusEtaEF_of_mono (now : ℚ) (samples : List Sample) (sf sl : Sample)
    (hh : samples.head? = some sf) (hl : samples.getLast? = some sl)
    (hlen : 2 ≤ samples.length)
    (hmono : ∀ s ∈ samples, sf.instant ≤ s.instant) :
    statusEtaEF now samples =
      some (EF.div (EF.fin (sl.max - sl.value))
        (EF.div (EF.fin (sf.value - sl.value))
          (EF.fin (sf.instant - sl.instant)))) := by
  unfold statusEtaEF
  rw [if_pos hlen, dataOf_of_mono now samples sf sl hh hl hmono,
    List.head?_map, List.getLast?_map, List.head?_reverse, List.getLast?_reverse,
    hh, hl]
  show some (EF.div (EF.fin (sl.max - sl.value))
      (EF.div (EF.fin (sf.value - sl.value))
        (EF.fin (sf.instant - (sl.instant - max (sl.instant - sf.instant) 1) -
          max (sl.instant - sf.instant) 1 -
          (sl.instant - (sl.instant - max (sl.instant - sf.instant) 1) -
            max (sl.instant - sf.instant) 1))))) = _
  have e3 : sf.instant - (sl.instant - max (sl.instant - sf.instant) 1) -
      max (sl.instant - sf.instant) 1 -
      (sl.instant - (sl.instant - max (sl.instant - sf.instant) 1) -
        max (sl.instant - sf.instant) 1) = sf.instant - sl.instant := by ring
  rw [e3]

theorem statusEtaEFMain_of_mono (now : ℚ) (samples : List Sample) (sf sl : Sample)
    (hh : samples.head? = some sf) (hl : samples.getLast? = some sl)
    (hlen : 2 ≤ samples.length)
    (hmono : ∀ s ∈ samples, sf.instant ≤ s.instant) :
    statusEtaEFMain now samples =
      some (EF.div (EF.fin (sl.max - sf.value))
        (EF.div (EF.fin (sf.value - sl.value))
          (EF.fin (sf.instant - sl.instant)))) := by
  unfold statusEtaEFMain
  rw [if_pos hlen, dataOf_of_mono now samples sf sl hh hl hmono,
    List.head?_map, List.getLast?_map, List.head?_reverse, List.getLast?_reverse,
    hh, hl]
  show some (EF.div (EF.fin (sl.max - sf.value))
      (EF.div (EF.fin (sf.value - sl.value))
        (EF.fin (sf.instant - (sl.instant - max (sl.instant - sf.instant) 1) -
          max (sl.instant - sf.instant) 1 -
          (sl.instant - (sl.instant - max (sl.instant - sf.instant) 1) -
            max (sl.instant - sf.instant) 1))))) = _
  have e3 : sf.instant - (sl.instant - max (sl.instant - sf.instant) 1) -
      max (sl.instant - sf.instant) 1 -
      (sl.instant - (sl.instant - max (sl.instant - sf.instant) 1) -
        max (sl.instant - sf.instant) 1) = sf.instant - sl.instant := by ring
  rw [e3]

theorem EF_div_fin_of_ne (a b : ℚ) (ha : a ≠ 0) (hb : b ≠ 0) :
    EF.div (EF.fin a) (EF.fin b) = EF.fin (a / b) := by
  simp [EF.div, ha, hb]

theorem EF_div_zero_neg (a b : ℚ) (ha : a = 0) (hb : b < 0) :
    EF.div (EF.fin a) (EF.fin b) = EF.nzero := by
  have hb0 : b ≠ 0 := ne_of_lt hb
  simp [EF.div, ha, hb, hb0]

theorem statusEtaEF_isSome (now : ℚ) (samples : List Sample)
    (hlen : 2 ≤ samples.length) : (statusEtaEF now samples).isSome = true := by
  have hne : samples ≠ [] := by
    intro h
    rw [h] at hlen
    simp at hlen
  have hdata := dataOf_ne_nil now samples hne
  obtain ⟨fr, hfr⟩ := Option.isSome_iff_exists.mp (List.head?_isSome.mpr hdata)
  obtain ⟨bk, hbk⟩ := Option.isSome_iff_exists.mp (List.getLast?_isSome.mpr hdata)
  obtain ⟨sl, hl⟩ := Option.isSome_iff_exists.mp (List.getLast?_isSome.mpr hne)
  unfold statusEtaEF
  rw [if_pos hlen, hfr, hbk, hl]
  rfl

theorem mono_two (s1 s2 : Sample) (h : s1.instant ≤ s2.instant) :
    ∀ s ∈ [s1, s2], s1.instant ≤ s.instant := by
  intro s hs
  rcases List.mem_cons.mp hs with rfl | hs2
  · exact le_refl _
  · rcases List.mem_cons.mp hs2 with rfl | hs3
    · exact h
    · exact absurd hs3 (List.not_mem_nil s)

/-- Concrete evaluation: a flat two-sample window whose max exceeds the
value.  The speed is the IEEE quotient 0.0 / (-10.0) = -0.0, so the eta
(100-50)/(-0.0) is negative infinity and the display shows "(unknown)". -/
theorem statusEtaDisplay_flat_low :
    statusEtaDisplay 0 [⟨0, 0, 50, 100⟩, ⟨10, 10, 50, 100⟩] = some none := by
  have h := statusEtaEF_of_mono 0 [⟨0, 0, 50, 100⟩, ⟨10, 10, 50, 100⟩]
    ⟨0, 0, 50, 100⟩ ⟨10, 10, 50, 100⟩ rfl rfl (by norm_num)
    (mono_two _ _ (by norm_num))
  unfold statusEtaDisplay
  rw [h]
  norm_num [EF.div, etaBranch, EF.ge0]

/-- Concrete evaluation: a flat two-sample window whose value exceeds max.
The speed is -0.0 again, but now the eta (100-150)/(-0.0) is positive
infinity, which passes the eta >= 0.0 test, and the saturating cast yields
the largest u64. -/
theorem statusEtaDisplay_flat_high :
    statusEtaDisplay 0 [⟨0, 0, 150, 100⟩, ⟨10, 10, 150, 100⟩] =
      some (some (2 ^ 64 - 1)) := by
  have h := statusEtaEF_of_mono 0 [⟨0, 0, 150, 100⟩, ⟨10, 10, 150, 100⟩]
    ⟨0, 0, 150, 100⟩ ⟨10, 10, 150, 100⟩ rfl rfl (by norm_num)
    (mono_two _ _ (by norm_num))
  unfold statusEtaDisplay
  rw [h]
  norm_num [EF.div, etaBranch, EF.ge0, EF.asU64]

theorem watchCmdTrace_deliveries (os : List RunOutcome) :
    (watchCmdTrace os).filterMap deliveredOf = os.map (Except.map runOnce) := by
  induction os with
  | nil => rfl
  | cons o os ih =>
      simp [watchCmdTrace, deliveredOf, List.filterMap_cons, ih]

theorem watchCmdTrace_length (os : List RunOutcome) :
    (watchCmdTrace os).length = 2 * os.length := by
  induction os with
  | nil => rfl
  | cons o os ih =>
      simp only [watchCmdTrace, List.length_cons, List.length_cons, ih]
      omega

theorem watchCmdTrace_events (os : List RunOutcome) :
    ∀ e ∈ watchCmdTrace os,
      (∃ r, e = WorkerEvent.deliver r) ∨ e = WorkerEvent.sleep 1 := by
  induction os with
  | nil =>
      intro e he
      simp [watchCmdTrace] at he
  | cons o os ih =>
      intro e he
      simp only [watchCmdTrace, List.mem_cons] at he
      rcases he with rfl | rfl | he
      · exact Or.inl ⟨_, rfl⟩
      · exact Or.inr rfl
      · exact ih e he

/-! ## Claim theorems -/

/-- Claim C1: for every sequence of calls to `Analyzer::process_output`
starting from the empty store, the store length never exceeds 1000 after any
call, and eviction is FIFO by insertion order: a run of exactly 1001
sample-producing calls leaves exactly 1000 entries, namely samples 2..1001 of
the insertion sequence (the drop of the first). -/
theorem C1_store_fifo_bound (inputs : List RunInput) (st2 : List Sample)
    (h : runSeq inputs [] = some st2) :
    st2.length ≤ 1000 ∧
      ((∀ i ∈ inputs, (extractSampleOpt i).isSome = true) →
        inputs.length = 1001 →
        st2 = (inputs.filterMap extractSampleOpt).drop 1) := by
  refine ⟨runSeq_length inputs [] st2 (by simp) h, fun hall hlen1001 => ?_⟩
  rw [runSeq_all_match inputs [] hall (by simp)] at h
  have hfl : (inputs.filterMap extractSampleOpt).length = 1001 := by
    rw [length_filterMap_of_all_isSome _ _ hall, hlen1001]
  have h2 := Option.some.inj h
  rw [← h2]
  simp [takeLast, hfl]

/-- Witness for C1 at a concrete two-call sequence of matching outputs. -/
theorem C1_store_fifo_bound_witness :
    runSeq [((1 : ℚ), (1 : ℚ), ⟨0, "1/2".toList, []⟩),
        ((2 : ℚ), (2 : ℚ), ⟨0, "1/2".toList, []⟩)] [] =
      some [⟨1, 1, 1, 2⟩, ⟨2, 2, 1, 2⟩] ∧
    ([⟨1, 1, 1, 2⟩, ⟨2, 2, 1, 2⟩] : List Sample).length ≤ 1000 := by
  have h : runSeq [((1 : ℚ), (1 : ℚ), ⟨0, "1/2".toList, []⟩),
      ((2 : ℚ), (2 : ℚ), ⟨0, "1/2".toList, []⟩)] [] =
      some [⟨1, 1, 1, 2⟩, ⟨2, 2, 1, 2⟩] := by decide
  exact ⟨h, (C1_store_fifo_bound _ _ h).1⟩

/-- Claim C2, counterexample: over the series (0,0), (1,0), (2,10) the
`analyze_rate` result after the warm-up discard is empty — it does not
reflect a rate of 10 — and even before the discard the single emitted entry
is (0, 5): the base point is not advanced across the flat pair, so the rate
spans the whole interval from t=0 and equals (10-0)/(2-0)=5, not
10/(2-1)=10. -/
theorem C2_counterexample :
    analyzeRate [((0 : ℚ), (0 : ℚ)), (1, 0), (2, 10)] = [] ∧
    (rateScan none [((0 : ℚ), (0 : ℚ)), (1, 0), (2, 10)]).filterMap id =
      [(0, 5)] := by
  constructor <;>
    norm_num [analyzeRate, rateScan, rateStep, rateEmit, List.filterMap_cons]

/-- Claim C2 (amended): consecutive equal-value pairs produce no entry and
leave the scan state unchanged, so deleting the duplicate point leaves the
rate series unchanged (coalescing); over (0,0), (1,0), (2,10) the
pre-discard series is exactly [(0, 5)] — one entry for the 0→10 change,
computed from the stale base point t=0 — and the result after the warm-up
discard is empty, with no entry for the 0→0 transition nor any rate-10
entry. -/
theorem C2_rate_coalescing :
    (∀ (xs ys : List (ℚ × ℚ)) (t1 t2 v : ℚ),
        analyzeRate (xs ++ (t1, v) :: (t2, v) :: ys) =
          analyzeRate (xs ++ (t1, v) :: ys)) ∧
    (rateScan none [((0 : ℚ), (0 : ℚ)), (1, 0), (2, 10)]).filterMap id =
      [(0, 5)] ∧
    analyzeRate [((0 : ℚ), (0 : ℚ)), (1, 0), (2, 10)] = [] := by
  refine ⟨fun xs ys t1 t2 v => ?_,
    by norm_num [rateScan, rateStep, rateEmit, List.filterMap_cons],
    by norm_num [analyzeRate, rateScan, rateStep, rateEmit,
      List.filterMap_cons]⟩
  unfold analyzeRate
  rw [rateScan_append, rateScan_append]
  obtain ⟨t3, ht3⟩ := rateStep_value (xs.foldl rateStep none) t1 v
  have hemit : rateEmit (some (t3, v)) (t2, v) = none := by simp [rateEmit]
  have hstep : rateStep (some (t3, v)) (t2, v) = some (t3, v) := by
    simp [rateStep]
  simp only [rateScan, ht3, hemit, hstep]
  have hB : List.filterMap id (rateEmit (xs.foldl rateStep none) (t1, v) ::
      none :: rateScan (some (t3, v)) ys) =
      List.filterMap id (rateEmit (xs.foldl rateStep none) (t1, v) ::
        rateScan (some (t3, v)) ys) := by
    rcases hsE : rateEmit (xs.foldl rateStep none) (t1, v) with _ | ev <;>
      simp [List.filterMap_cons, hsE]
  rw [List.filterMap_append, List.filterMap_append, hB]

/-- Claim C3, code bug: on the window v_first=0, v_last=50, max=100,
dt=10 s, the compiled draw — the inline `AppState::draw` of src/main.rs
lines 288-297, since src/main.rs has no `mod draw;` — displays an ETA of
20 seconds: its line 292 computes eta = (max - back.1)/speed where back is
the oldest windowed entry, i.e. eta = (max - v_first)/speed, not the claimed
eta = (max - v_last)/speed.  The in-tree revision of the same code in
src/draw.rs lines 138-147 (not wired into the build) computes exactly the
claimed formula and yields the claimed 10 seconds on the same window,
evidencing that the claim states the intent and the main.rs copy is the
slip. -/
theorem C3_eta_code_bug :
    statusEtaDisplayMain 0 [⟨0, 0, 0, 100⟩, ⟨10, 10, 50, 100⟩] =
      some (some 20) ∧
    statusEtaDisplay 0 [⟨0, 0, 0, 100⟩, ⟨10, 10, 50, 100⟩] =
      some (some 10) := by
  have hm := statusEtaEFMain_of_mono 0 [⟨0, 0, 0, 100⟩, ⟨10, 10, 50, 100⟩]
    ⟨0, 0, 0, 100⟩ ⟨10, 10, 50, 100⟩ rfl rfl (by norm_num)
    (mono_two _ _ (by norm_num))
  have hd := statusEtaEF_of_mono 0 [⟨0, 0, 0, 100⟩, ⟨10, 10, 50, 100⟩]
    ⟨0, 0, 0, 100⟩ ⟨10, 10, 50, 100⟩ rfl rfl (by norm_num)
    (mono_two _ _ (by norm_num))
  constructor
  · unfold statusEtaDisplayMain
    rw [hm]
    norm_num [etaBranch, EF.div, EF.ge0, EF.asU64]
    decide
  · unfold statusEtaDisplay
    rw [hd]
    norm_num [etaBranch, EF.div, EF.ge0, EF.asU64]
    decide

/-- Claim C4, counterexample: in a window whose two samples have equal values
(speed == 0) with value 150 above max 100, the IEEE division yields
(100-150)/(-0.0) = +infinity, which passes the eta >= 0.0 test, so the
display shows a saturated duration of 2^64-1 seconds instead of the
"(unknown)" text the claim requires for speed == 0. -/
theorem C4_counterexample :
    statusEtaDisplay 0 [⟨0, 0, 150, 100⟩, ⟨10, 10, 150, 100⟩] ≠ some none ∧
    statusEtaDisplay 0 [⟨0, 0, 150, 100⟩, ⟨10, 10, 150, 100⟩] =
      some (some (2 ^ 64 - 1)) := by
  refine ⟨?_, statusEtaDisplay_flat_high⟩
  rw [statusEtaDisplay_flat_high]
  simp

/-- Claim C4 (amended): with at least 2 windowed samples the ETA path is
total (the unwraps never fire, so it never crashes); whenever the computed
eta fails the eta >= 0.0 test — a negative finite value, -infinity, or NaN —
the display reports unknown and never a negative duration; a flat window
(speed == 0) with max above the value yields -infinity and so reports
unknown; but a flat window whose value exceeds max yields +infinity and
displays a saturated 2^64-1-second duration instead of unknown. -/
theorem C4_eta_unknown :
    (∀ (now : ℚ) (samples : List Sample), 2 ≤ samples.length →
        (statusEtaDisplay now samples).isSome = true) ∧
    (∀ q : ℚ, q < 0 → etaBranch (EF.fin q) = none) ∧
    etaBranch EF.ninf = none ∧
    etaBranch EF.nan = none ∧
    statusEtaDisplay 0 [⟨0, 0, 50, 100⟩, ⟨10, 10, 50, 100⟩] = some none ∧
    statusEtaDisplay 0 [⟨0, 0, 150, 100⟩, ⟨10, 10, 150, 100⟩] =
      some (some (2 ^ 64 - 1)) := by
  refine ⟨?_, ?_, rfl, rfl, statusEtaDisplay_flat_low, statusEtaDisplay_flat_high⟩
  · intro now samples h2
    obtain ⟨x, hx⟩ :=
      Option.isSome_iff_exists.mp (statusEtaEF_isSome now samples h2)
    simp [statusEtaDisplay, hx]
  · intro q hq
    have hnl : ¬ (0 : ℚ) ≤ q := not_le.mpr hq
    simp [etaBranch, EF.ge0, hnl]

/-- Witness for C4 at concrete inputs: a healthy window has a displayed
status, and a negative eta maps to the unknown branch. -/
theorem C4_eta_unknown_witness :
    (statusEtaDisplay 0 [⟨0, 0, 0, 100⟩, ⟨5, 5, 20, 100⟩]).isSome = true ∧
    etaBranch (EF.fin (-3)) = none :=
  ⟨C4_eta_unknown.1 0 [⟨0, 0, 0, 100⟩, ⟨5, 5, 20, 100⟩] (by decide),
   C4_eta_unknown.2.1 (-3) (by decide)⟩

/-- Claim C5, counterexample: `watch_cmd` pipes only stdout, so the bytes the
child writes to standard error (here the single byte 65, "A") are not
captured: the stderr field of the delivered CmdOutput is empty rather than
the lossy decoding of those bytes. -/
theorem C5_counterexample :
    (runOnce ⟨0, [], [65]⟩).stderr ≠ utf8Lossy [65] := by decide

/-- Claim C5 (amended): each run of the monitored command surfaces the exit
status verbatim and captures the standard-output byte stream to completion,
decoding it with lossy replacement (identity on ASCII, U+FFFD on invalid
bytes, never fatal); standard error is inherited by the child, not piped, so
the stderr field of the resulting CmdOutput is always empty. -/
theorem C5_capture :
    (∀ b : ChildBehavior, (runOnce b).status = b.status ∧
        (runOnce b).stdout = utf8Lossy b.stdoutBytes ∧
        (runOnce b).stderr = []) ∧
    (∀ bytes : List ℕ, (∀ x ∈ bytes, x < 0x80) →
        utf8Lossy bytes = bytes.map Char.ofNat) ∧
    utf8Lossy [0xFF] = [repl] := by
  exact ⟨fun b => ⟨rfl, rfl, rfl⟩, utf8Lossy_ascii, by decide⟩

/-- Witness for C5 on a concrete run: ASCII stdout bytes decode to the same
text and the stderr field is empty. -/
theorem C5_capture_witness :
    (runOnce ⟨0, [72, 105], [65]⟩).stdout = ['H', 'i'] ∧
    (runOnce ⟨0, [72, 105], [65]⟩).stderr = [] := by
  refine ⟨?_, (C5_capture.1 ⟨0, [72, 105], [65]⟩).2.2⟩
  rw [(C5_capture.1 ⟨0, [72, 105], [65]⟩).2.1,
    C5_capture.2.1 [72, 105] (by decide)]
  decide

/-- Claim C6: extraction finds the first substring of stdout matching
integer-slash-integer and parses both integers: processing output containing
"12/34 done" appends a Sample with value 12 and max 34, while processing
"no numbers here" appends nothing. -/
theorem C6_extraction (now wall : ℚ) (st : List Sample) (status : ℤ)
    (err : List Char) (hlen : st.length ≤ 999) :
    processOutput now wall st ⟨status, "12/34 done".toList, err⟩ =
      some (st ++ [⟨now, wall, 12, 34⟩]) ∧
    processOutput now wall st ⟨status, "no numbers here".toList, err⟩ =
      some st := by
  constructor
  · rw [processOutput_of_match now wall st _ ('1' :: '2' :: [])
      ('3' :: '4' :: []) 12 34
      (by show findMatch "12/34 done".toList =
            some (('1' :: '2' :: []), ('3' :: '4' :: []))
          decide)
      (by decide) (by decide)]
    have hno : ¬ 1000 < (st ++ [(⟨now, wall, 12, 34⟩ : Sample)]).length := by
      simp only [List.length_append, List.length_cons, List.length_nil]
      omega
    unfold evict
    rw [if_neg hno]
  · rw [processOutput_of_no_match now wall st _
      (by show findMatch "no numbers here".toList = none
          decide)]
    have hno : ¬ 1000 < st.length := by omega
    unfold evict
    rw [if_neg hno]

/-- Witness for C6 from the empty store. -/
theorem C6_extraction_witness :
    processOutput 0 0 [] ⟨0, "12/34 done".toList, []⟩ =
      some [⟨0, 0, 12, 34⟩] ∧
    processOutput 0 0 [] ⟨0, "no numbers here".toList, []⟩ = some [] :=
  ⟨(C6_extraction 0 0 [] 0 [] (by decide)).1,
   (C6_extraction 0 0 [] 0 [] (by decide)).2⟩

/-- Claim C7: a spawn/wait failure is still delivered to the callback and
every iteration — failed or not — is followed by the fixed one-second sleep
with the loop continuing (one delivery and one sleep per outcome, in order);
the worker callback replaces the last-result slot wholesale on every run and
leaves the sample store untouched on a failed run. -/
theorem C7_failure_handling :
    (∀ os : List RunOutcome,
        (watchCmdTrace os).filterMap deliveredOf =
          os.map (Except.map runOnce) ∧
        (watchCmdTrace os).length = 2 * os.length ∧
        ∀ e ∈ watchCmdTrace os,
          (∃ r, e = WorkerEvent.deliver r) ∨ e = WorkerEvent.sleep 1) ∧
    (∀ (now wall : ℚ) (st : WorkerSt) (e : IOErr),
        workerOnResult now wall st (Except.error e) =
          some (⟨st.samples, some (Except.error e)⟩, true)) ∧
    (∀ (now wall : ℚ) (st : WorkerSt) (r : CmdResult) (st2 : WorkerSt)
        (u : Bool), workerOnResult now wall st r = some (st2, u) →
          st2.lastOutput = some r ∧ u = true) := by
  refine ⟨fun os => ⟨watchCmdTrace_deliveries os, watchCmdTrace_length os,
    watchCmdTrace_events os⟩, fun now wall st e => rfl, ?_⟩
  intro now wall st r st2 u h
  rcases r with e | out
  · simp only [workerOnResult, Option.some.injEq, Prod.mk.injEq] at h
    rw [← h.1, ← h.2]
    exact ⟨rfl, rfl⟩
  · simp only [workerOnResult] at h
    obtain ⟨s1, _, hf⟩ := Option.map_eq_some'.mp h
    obtain ⟨hst, hu⟩ := Prod.mk.injEq .. ▸ hf
    rw [← hst, ← hu]
    exact ⟨rfl, rfl⟩

/-- Witness for C7 at a concrete failing run. -/
theorem C7_failure_handling_witness :
    workerOnResult 0 0 ⟨[], none⟩ (Except.error ⟨['x']⟩) =
      some (⟨[], some (Except.error ⟨['x']⟩)⟩, true) ∧
    (watchCmdTrace [Except.error ⟨['x']⟩]).filterMap deliveredOf =
      [Except.error ⟨['x']⟩] := by
  have h := C7_failure_handling.2.1 0 0 ⟨[], none⟩ ⟨['x']⟩
  have h2 := (C7_failure_handling.1 [Except.error ⟨['x']⟩]).1
  exact ⟨h, by simpa using h2⟩

/-- Claim C8: the rate series is empty for 0 or 1 samples, for every series
whose values are all identical, and for every series of exactly 2 samples —
even with distinct values — because the first derivable point plus the
warm-up discard remove everything. -/
theorem C8_rate_edge_cases :
    analyzeRate [] = [] ∧
    (∀ p : ℚ × ℚ, analyzeRate [p] = []) ∧
    (∀ (ps : List (ℚ × ℚ)) (c : ℚ), (∀ q ∈ ps, q.2 = c) →
        analyzeRate ps = []) ∧
    (∀ p q : ℚ × ℚ, analyzeRate [p, q] = []) := by
  refine ⟨rfl, fun p => rfl, fun ps c hps => ?_, fun p q => ?_⟩
  · unfold analyzeRate
    rw [rateScan_const ps c none hps
      (fun t v hteq => Option.noConfusion hteq)]
    rfl
  · rcases p with ⟨pt, pv⟩
    rcases q with ⟨qt, qv⟩
    by_cases h : qv = pv <;>
      simp [analyzeRate, rateScan, rateStep, rateEmit, h, List.filterMap_cons]

/-- Witness for C8 at a concrete all-identical series. -/
theorem C8_rate_edge_cases_witness :
    (∀ q ∈ [((0 : ℚ), (5 : ℚ)), (1, 5), (2, 5)], q.2 = 5) ∧
    analyzeRate [((0 : ℚ), (5 : ℚ)), (1, 5), (2, 5)] = [] :=
  ⟨by decide, C8_rate_edge_cases.2.2.1 _ 5 (by decide)⟩

/-- Claim C9, counterexample: the event handler of src/main.rs lines 145-163
has no help-toggle arm: the h key — the binding the help text in src/draw.rs
documents as toggling the help window — falls into the catch-all
Term arm and is ignored exactly like any other unbound key, neither ending
the loop nor redrawing nor changing any state. -/
theorem C9_counterexample :
    processEvent (AppEvent.term (TEvent.key (TKey.char 'h'))) =
      (false, false) ∧
    processEvent (AppEvent.term (TEvent.key (TKey.char 'h'))) =
      processEvent (AppEvent.term (TEvent.key (TKey.char 'z'))) := by
  exact ⟨rfl, rfl⟩

/-- Claim C9 (amended): the handler accepts exactly a quit signal reachable
through three key bindings — Ctrl-C, the q key and Escape, each ending the
main loop — plus the resize and update signals, each triggering a redraw
without ending the loop; every other event, including the h key, is ignored
without changing state or ending the loop.  No help-toggle signal exists in
this handler. -/
theorem C9_event_handling (e : AppEvent) :
    ((processEvent e).1 = true ↔
      (e = AppEvent.term (TEvent.key (TKey.ctrl 'c')) ∨
       e = AppEvent.term (TEvent.key (TKey.char 'q')) ∨
       e = AppEvent.term (TEvent.key TKey.esc))) ∧
    ((processEvent e).2 = true ↔
      (e = AppEvent.resize ∨ e = AppEvent.update)) := by
  cases e with
  | term te =>
      cases te with
      | key k =>
          cases k with
          | char c => by_cases h : c = 'q' <;> simp [processEvent, h]
          | ctrl c => by_cases h : c = 'c' <;> simp [processEvent, h]
          | esc => simp [processEvent]
          | otherKey => simp [processEvent]
      | mouse => simp [processEvent]
      | unsupported => simp [processEvent]
  | resize => simp [processEvent]
  | update => simp [processEvent]

/-- Claim C10: `Analyzer::process_output` is total — it never panics —
because whenever the detection pattern matches, both captured groups are
non-empty decimal-digit strings, and parsing such a string always succeeds,
so the error branch behind each unwrap on parse is unreachable. -/
theorem C10_process_output_total :
    (∀ s g1 g2, findMatch s = some (g1, g2) →
        g1 ≠ [] ∧ g1.all Char.isDigit = true ∧ (parseNum g1).isSome = true ∧
        g2 ≠ [] ∧ g2.all Char.isDigit = true ∧ (parseNum g2).isSome = true) ∧
    ∀ (now wall : ℚ) (st : List Sample) (outp : CmdOutput),
      (processOutput now wall st outp).isSome = true := by
  refine ⟨fun s g1 g2 h => ?_, processOutput_isSome⟩
  obtain ⟨h1, h2, h3, h4⟩ := findMatch_groups s g1 g2 h
  exact ⟨h1, h2, parseNum_isSome g1 h1 h2, h3, h4, parseNum_isSome g2 h3 h4⟩

/-- Witness for C10 on a concrete matching output. -/
theorem C10_process_output_total_witness :
    ((['1'] : List Char) ≠ [] ∧ (['1'] : List Char).all Char.isDigit = true ∧
      (parseNum ['1']).isSome = true ∧
      (['2'] : List Char) ≠ [] ∧ (['2'] : List Char).all Char.isDigit = true ∧
      (parseNum ['2']).isSome = true) ∧
    (processOutput 0 0 [] ⟨0, "1/2".toList, []⟩).isSome = true :=
  ⟨C10_process_output_total.1 "1/2".toList ['1'] ['2'] (by decide),
   C10_process_output_total.2 0 0 [] ⟨0, "1/2".toList, []⟩⟩

end Pvfilt
